import Mathlib

/-!
# Verification of the metalgbm histogram and tree primitives

A shallow embedding of `src/histogram.rs` and `src/tree.rs`.

Conventions of the embedding:
* `f32` feature values, thresholds, gradients and hessians are modelled as
  exact rationals (`ℚ`); the source assumes NaN-free columns, and all the
  operations used (comparison, addition) are order/field operations.
* A Rust panic (out-of-bounds indexing, integer division by zero) is
  modelled as `Option.none`; a function that cannot panic on the traced
  path returns `some`.
* Rust `Vec<f32>` is `List ℚ`; `usize` arithmetic is `Nat` arithmetic
  (the quantities involved are small indices, no overflow is reachable).
* `slice::sort_by` with the `partial_cmp` comparator is an ascending
  comparison sort; on NaN-free data any comparison sort yields the unique
  `≤`-sorted permutation, embedded as `List.insertionSort (· ≤ ·)`.
* `Vec::dedup` removes *consecutive* duplicates; it is embedded as
  `dedupConsec` below.
* `slice::partition_point p` returns, for a partitioned slice, the index of
  the first element on which `p` is false, i.e. the length of the maximal
  prefix satisfying `p`; it is embedded as the length of `List.takeWhile`.
  Every call site applies it to the sorted `bins` with the predicate
  `(· ≤ value)`, which is partitioned there.
-/

namespace MetalGBM

/-- `Vec::dedup`: remove consecutive duplicate elements, keeping the first
of each run. -/
def dedupConsec : List ℚ → List ℚ
  | [] => []
  | [a] => [a]
  | a :: b :: rest => if a = b then dedupConsec (b :: rest) else a :: dedupConsec (b :: rest)

/-- The `sorted_values` local of `Histogram::from_feature`: sort the column
ascending, then remove consecutive duplicates. -/
def sorted_values (feature_values : List ℚ) : List ℚ :=
  dedupConsec (List.insertionSort (· ≤ ·) feature_values)

/-- The `n_unique` local of `Histogram::from_feature`. -/
def n_unique (feature_values : List ℚ) : Nat :=
  (sorted_values feature_values).length

/-- The bin-construction loop of `Histogram::from_feature`:
`for i in 0..=num_bins { bins.push(sorted_values[(i * (n_unique - 1)) / num_bins]) }`.
The index is provably `< sv.length` whenever `1 ≤ num_bins ≤ sv.length - 1`
(see `quantile_idx_le`), so the checked Rust access never panics there and
`getD` agrees with it. -/
def quantile_bins (sv : List ℚ) (num_bins : Nat) : List ℚ :=
  (List.range (num_bins + 1)).map (fun i => sv.getD ((i * (sv.length - 1)) / num_bins) 0)

/-- The `Histogram` struct of `src/histogram.rs`. -/
structure Histogram where
  bins : List ℚ
  gradients : List ℚ
  hessians : List ℚ
  deriving DecidableEq

namespace Histogram

/-- `Histogram::from_feature`. Returns `none` exactly when the Rust code
panics: with at least two distinct values and `max_bins = 0`, the loop body
computes `(i * (n_unique - 1)) / num_bins` with `num_bins = 0`, an integer
division by zero. -/
def from_feature (feature_values : List ℚ) (max_bins : Nat) : Option Histogram :=
  let sv := sorted_values feature_values
  if sv.length = 0 then
    some ⟨[], [], []⟩
  else if sv.length = 1 then
    some ⟨[sv.getD 0 0], [0], [0]⟩
  else
    let num_bins := min max_bins (sv.length - 1)
    if num_bins = 0 then
      none
    else
      some ⟨quantile_bins sv num_bins,
            List.replicate num_bins 0,
            List.replicate num_bins 0⟩

/-- `Histogram::search_bin_index`. `partition_point (· <= value)` is the
length of the maximal `(· ≤ value)`-prefix of the sorted `bins`. The `.min`
uses `Nat` truncated subtraction; the subtraction only differs from Rust's
when `gradients` is empty, where every caller then fails on the stat-bin
indexing either way. -/
def search_bin_index (h : Histogram) (feature_value : ℚ) : Nat :=
  let idx := (h.bins.takeWhile (fun boundary => boundary ≤ feature_value)).length
  if idx = 0 then 0 else min (idx - 1) (h.gradients.length - 1)

/-- One iteration of the `accumulate` loop at sample value `x` with
per-sample stats `gx`, `hx`: find the bin, add into `self.gradients` and
`self.hessians`. `none` models the panic when the bin index is out of
bounds of a stat vector. -/
def accumulate_step (h : Histogram) (x gx hx : ℚ) : Option Histogram :=
  let bin := h.search_bin_index x
  match h.gradients[bin]?, h.hessians[bin]? with
  | some gcur, some hcur =>
      some ⟨h.bins, h.gradients.set bin (gcur + gx), h.hessians.set bin (hcur + hx)⟩
  | _, _ => none

/-- `Histogram::accumulate`: loop `for i in 0..feature_values.len()`,
reading `gradients[i]` and `hessians[i]`. Reading past the end of
`gradients` or `hessians` is the Rust index panic, modelled as `none`;
entries of `gradients`/`hessians` beyond `feature_values.len()` are never
read. -/
def accumulate (h : Histogram) : List ℚ → List ℚ → List ℚ → Option Histogram
  | [], _, _ => some h
  | x :: fv, gx :: g, hx :: hs =>
      (accumulate_step h x gx hx).bind fun h' => accumulate h' fv g hs
  | _ :: _, _, _ => none

end Histogram

/-- The `TreeNode` enum of `src/tree.rs`. -/
inductive TreeNode where
  | Split (feature_index : Nat) (threshold : ℚ) (left_child right_child : TreeNode)
  | Leaf (value : ℚ)
  deriving DecidableEq

/-- The `Tree` struct of `src/tree.rs`. -/
structure Tree where
  root : TreeNode
  deriving DecidableEq

namespace Tree

/-- `Tree::new`. -/
def new (root : TreeNode) : Tree := ⟨root⟩

/-- `Tree::predict_recursive`. `features[*feature_index]` is a checked
slice access: `none` models the Rust index-out-of-bounds panic. -/
def predict_recursive : TreeNode → List ℚ → Option ℚ
  | .Leaf value, _ => some value
  | .Split feature_index threshold left_child right_child, features =>
      match features[feature_index]? with
      | none => none
      | some feature_value =>
          if feature_value < threshold then
            predict_recursive left_child features
          else
            predict_recursive right_child features

/-- `Tree::predict`. -/
def predict (t : Tree) (features : List ℚ) : Option ℚ :=
  predict_recursive t.root features

end Tree

/-- The node reached from `root` by the descent rule of the spec: at a
`Split`, compare the indexed feature against the threshold with strict
less-than, going left if less and right otherwise. `Reached root fs n`
holds when the descent starting at `root` on the feature vector `fs`
passes through node `n`. -/
inductive Reached : TreeNode → List ℚ → TreeNode → Prop where
  | refl (n : TreeNode) (fs : List ℚ) : Reached n fs n
  | left {i : Nat} {t v : ℚ} {l r n : TreeNode} {fs : List ℚ} :
      fs[i]? = some v → v < t → Reached l fs n → Reached (.Split i t l r) fs n
  | right {i : Nat} {t v : ℚ} {l r n : TreeNode} {fs : List ℚ} :
      fs[i]? = some v → ¬ v < t → Reached r fs n → Reached (.Split i t l r) fs n

/-- Spec-side definition, following the spec's words for `search_bin_index`:
the index of the rightmost boundary that is `≤ value`, if any. -/
def spec_rightmost_le (bins : List ℚ) (value : ℚ) : Option Nat :=
  ((List.range bins.length).filter (fun k => bins.getD k 0 ≤ value)).getLast?

/-- Spec-side definition, following the spec's words for `search_bin_index`:
"find the rightmost boundary that is `<= value`; its index (clamped into
`[0, num_bins - 1]`) is the bin index", returning bin `0` when no boundary
is `≤ value`. To be compared against the implementation's
`Histogram.search_bin_index`. -/
def spec_bin_index (bins : List ℚ) (num_bins : Nat) (value : ℚ) : Nat :=
  match spec_rightmost_le bins value with
  | none => 0
  | some k => min k (num_bins - 1)

example : Histogram.from_feature [0, 1, 2, 3, 4, 5, 6, 7, 8, 9] 4
    = some ⟨[0, 2, 4, 6, 9], [0, 0, 0, 0], [0, 0, 0, 0]⟩ := by decide

example : Histogram.from_feature [1, 5, 10, 1, 5, 10] 10
    = some ⟨[1, 5, 10], [0, 0], [0, 0]⟩ := by decide

example : Histogram.from_feature [42, 42, 42, 42, 42] 5
    = some ⟨[42], [0], [0]⟩ := by decide

example : Histogram.from_feature [] 5 = some ⟨[], [], []⟩ := by decide

example : Histogram.from_feature [0, 1] 0 = none := by decide

example : Histogram.search_bin_index ⟨[0, 2, 4, 6, 9], [0, 0, 0, 0], [0, 0, 0, 0]⟩ 7 = 3 := by decide

example : Histogram.search_bin_index ⟨[0, 2, 4, 6, 9], [0, 0, 0, 0], [0, 0, 0, 0]⟩ 10 = 3 := by decide

example : Histogram.search_bin_index ⟨[0, 2, 4, 6, 9], [0, 0, 0, 0], [0, 0, 0, 0]⟩ 2 = 1 := by decide

example : Tree.predict (Tree.new (.Split 0 5 (.Leaf 10) (.Leaf 20))) [3] = some 10 := by decide

example : Tree.predict (Tree.new (.Split 0 5 (.Leaf 10) (.Leaf 20))) [5] = some 20 := by decide

example : (Histogram.accumulate ⟨[0, 1], [0], [0]⟩ [0] [1, 2] [3, 4]).isSome = true := by decide

example : (Histogram.accumulate ⟨[0, 1], [0], [0]⟩ [0, 1] [1] [3, 4]) = none := by decide

/-! ## Lemmas about `dedupConsec` -/

theorem dedupConsec_cons_cons_self (b : ℚ) (rest : List ℚ) :
    dedupConsec (b :: b :: rest) = dedupConsec (b :: rest) := by
  simp [dedupConsec]

theorem dedupConsec_cons_cons_ne {a b : ℚ} (hab : a ≠ b) (rest : List ℚ) :
    dedupConsec (a :: b :: rest) = a :: dedupConsec (b :: rest) := by
  simp [dedupConsec, hab]

theorem mem_dedupConsec {x : ℚ} : ∀ {l : List ℚ}, x ∈ dedupConsec l ↔ x ∈ l := by
  intro l
  induction l using dedupConsec.induct with
  | case1 => simp [dedupConsec]
  | case2 a => simp [dedupConsec]
  | case3 b rest ih =>
      rw [dedupConsec_cons_cons_self, ih]
      simp [List.mem_cons]
  | case4 a b rest hab ih => rw [dedupConsec_cons_cons_ne hab]; simp [ih]

theorem dedupConsec_eq_nil_iff : ∀ {l : List ℚ}, dedupConsec l = [] ↔ l = [] := by
  intro l
  induction l using dedupConsec.induct with
  | case1 => simp [dedupConsec]
  | case2 a => simp [dedupConsec]
  | case3 b rest ih => rw [dedupConsec_cons_cons_self]; simpa using ih
  | case4 a b rest hab ih => rw [dedupConsec_cons_cons_ne hab]; simp

theorem dedupConsec_sorted : ∀ {l : List ℚ}, List.Sorted (· ≤ ·) l →
    List.Sorted (· ≤ ·) (dedupConsec l) := by
  intro l
  induction l using dedupConsec.induct with
  | case1 => simp [dedupConsec]
  | case2 a => simp [dedupConsec]
  | case3 b rest ih =>
      intro hs
      rw [dedupConsec_cons_cons_self]
      exact ih (List.sorted_cons.mp hs).2
  | case4 a b rest hab ih =>
      intro hs
      rw [List.sorted_cons] at hs
      rw [dedupConsec_cons_cons_ne hab, List.sorted_cons]
      exact ⟨fun c hc => hs.1 c (mem_dedupConsec.mp hc), ih hs.2⟩

theorem dedupConsec_head? : ∀ {l : List ℚ}, (dedupConsec l).head? = l.head? := by
  intro l
  induction l using dedupConsec.induct with
  | case1 => rfl
  | case2 a => rfl
  | case3 b rest ih => rw [dedupConsec_cons_cons_self]; simpa using ih
  | case4 a b rest hab ih => rw [dedupConsec_cons_cons_ne hab]; simp

theorem dedupConsec_getLast? : ∀ {l : List ℚ}, (dedupConsec l).getLast? = l.getLast? := by
  intro l
  induction l using dedupConsec.induct with
  | case1 => rfl
  | case2 a => rfl
  | case3 b rest ih => rw [dedupConsec_cons_cons_self]; simpa using ih
  | case4 a b rest hab ih =>
      rw [dedupConsec_cons_cons_ne hab]
      have hne : dedupConsec (b :: rest) ≠ [] := by
        simp [dedupConsec_eq_nil_iff]
      obtain ⟨c, l', heq⟩ := List.exists_cons_of_ne_nil hne
      rw [heq] at ih ⊢
      rw [List.getLast?_cons_cons, List.getLast?_cons_cons]
      exact ih

/-! ## Lemmas about `sorted_values` and `n_unique` -/

theorem sorted_values_sorted (l : List ℚ) : List.Sorted (· ≤ ·) (sorted_values l) :=
  dedupConsec_sorted (List.sorted_insertionSort _ l)

theorem mem_sorted_values {x : ℚ} {l : List ℚ} : x ∈ sorted_values l ↔ x ∈ l := by
  rw [sorted_values, mem_dedupConsec]
  exact (List.perm_insertionSort _ l).mem_iff

theorem sorted_values_eq_nil_iff {l : List ℚ} : sorted_values l = [] ↔ l = [] := by
  rw [sorted_values, dedupConsec_eq_nil_iff]
  constructor
  · intro h
    have := (List.perm_insertionSort (· ≤ ·) l).length_eq
    rw [h] at this
    exact List.length_eq_zero.mp this.symm
  · intro h; rw [h]; rfl

theorem sorted_values_perm_congr {l l' : List ℚ} (hp : l.Perm l') :
    sorted_values l = sorted_values l' := by
  unfold sorted_values
  congr 1
  exact List.eq_of_perm_of_sorted
    (((List.perm_insertionSort _ l).trans hp).trans (List.perm_insertionSort _ l').symm)
    (List.sorted_insertionSort _ l) (List.sorted_insertionSort _ l')

/-- An element of a `≤`-sorted list is at most its last element. -/
theorem sorted_le_getLast? {l : List ℚ} (hs : List.Sorted (· ≤ ·) l) {x M : ℚ}
    (hx : x ∈ l) (hM : l.getLast? = some M) : x ≤ M := by
  induction l generalizing x with
  | nil => cases hx
  | cons a rest ih =>
      rw [List.sorted_cons] at hs
      cases rest with
      | nil =>
          simp at hx hM
          simp [hx, hM]
      | cons b rest' =>
          rw [List.getLast?_cons_cons] at hM
          rcases List.mem_cons.mp hx with hxa | hxrest
          · subst hxa
            have hbM : b ≤ M := ih hs.2 (List.mem_cons_self b rest') hM
            exact le_trans (hs.1 b (List.mem_cons_self b rest')) hbM
          · exact ih hs.2 hxrest hM

/-- An element of a `≤`-sorted list is at least its head. -/
theorem sorted_head?_le {l : List ℚ} (hs : List.Sorted (· ≤ ·) l) {x m : ℚ}
    (hx : x ∈ l) (hm : l.head? = some m) : m ≤ x := by
  cases l with
  | nil => cases hx
  | cons a rest =>
      rw [List.head?_cons, Option.some_inj] at hm
      subst hm
      rw [List.sorted_cons] at hs
      rcases List.mem_cons.mp hx with hxa | hxrest
      · exact le_of_eq hxa.symm
      · exact hs.1 x hxrest

/-! ## The `partition_point` characterization on sorted boundary lists -/

/-- On a `≤`-sorted list, the indices whose element is `≤ q` are exactly
those below the length of the `(· ≤ q)`-maximal prefix (the value Rust's
`partition_point` returns). -/
theorem sorted_getD_le_iff_lt_takeWhile_length {l : List ℚ} (hs : List.Sorted (· ≤ ·) l)
    (q : ℚ) : ∀ {k : Nat}, k < l.length →
      (l.getD k 0 ≤ q ↔ k < (l.takeWhile (fun b => b ≤ q)).length) := by
  induction l with
  | nil => intro k hk; cases (Nat.not_lt_zero k) hk
  | cons a rest ih =>
      intro k hk
      rw [List.sorted_cons] at hs
      rw [List.takeWhile_cons]
      by_cases ha : a ≤ q
      · rw [if_pos (by simpa using ha)]
        cases k with
        | zero => simpa using ha
        | succ k' =>
            rw [List.getD_cons_succ, List.length_cons, Nat.succ_lt_succ_iff]
            exact ih hs.2 (by simpa using hk)
      · rw [if_neg (by simpa using ha)]
        simp only [List.length_nil, Nat.not_lt_zero, iff_false]
        cases k with
        | zero => simpa using ha
        | succ k' =>
            rw [List.getD_cons_succ]
            intro hle
            have hk' : k' < rest.length := by simpa using hk
            have : a ≤ rest.getD k' 0 := by
              rw [List.getD_eq_getElem rest 0 hk']
              exact hs.1 _ (List.getElem_mem hk')
            exact ha (le_trans this hle)

/-- Filtering `range n` by `(· < m)` keeps `range (min m n)`. -/
theorem filter_lt_range (n m : Nat) :
    (List.range n).filter (fun k => k < m) = List.range (min m n) := by
  induction n with
  | zero => simp
  | succ n' ih =>
      rw [List.range_succ, List.filter_append, ih]
      by_cases hn : n' < m
      · have hmin : min m (n' + 1) = n' + 1 := by omega
        have hmin' : min m n' = n' := by omega
        rw [hmin, hmin', List.range_succ]
        simp [hn]
      · have hmin : min m (n' + 1) = min m n' := by omega
        rw [hmin]
        simp [hn]

theorem range_getLast? (m : Nat) :
    (List.range m).getLast? = if m = 0 then none else some (m - 1) := by
  cases m with
  | zero => rfl
  | succ m' => rw [List.range_succ, List.getLast?_concat]; simp

/-- On a sorted boundary list, the rightmost boundary `≤ q` sits one below
the `partition_point`. -/
theorem spec_rightmost_le_eq {bins : List ℚ} (hs : List.Sorted (· ≤ ·) bins) (q : ℚ) :
    spec_rightmost_le bins q =
      if (bins.takeWhile (fun b => b ≤ q)).length = 0 then none
      else some ((bins.takeWhile (fun b => b ≤ q)).length - 1) := by
  have hle : (bins.takeWhile (fun b => b ≤ q)).length ≤ bins.length :=
    (List.takeWhile_sublist _).length_le
  unfold spec_rightmost_le
  have hcong : (List.range bins.length).filter (fun k => bins.getD k 0 ≤ q)
      = (List.range bins.length).filter (fun k => k < (bins.takeWhile (fun b => b ≤ q)).length) := by
    apply List.filter_congr
    intro k hk
    rw [List.mem_range] at hk
    exact decide_eq_decide.mpr (sorted_getD_le_iff_lt_takeWhile_length hs q hk)
  rw [hcong, filter_lt_range, Nat.min_eq_left hle, range_getLast?]

/-- `search_bin_index` computes the spec's rule on any histogram whose
boundary list is sorted. -/
theorem search_bin_index_eq_spec {h : Histogram} (hs : List.Sorted (· ≤ ·) h.bins) (q : ℚ) :
    h.search_bin_index q = spec_bin_index h.bins h.gradients.length q := by
  rw [Histogram.search_bin_index, spec_bin_index, spec_rightmost_le_eq hs]
  by_cases h0 : (h.bins.takeWhile (fun b => b ≤ q)).length = 0 <;> simp [h0]

/-- Low clamp: a query below the first boundary lands in bin `0`. -/
theorem search_bin_index_low {h : Histogram} {b0 q : ℚ}
    (hh : h.bins.head? = some b0) (hq : q < b0) : h.search_bin_index q = 0 := by
  obtain ⟨rest, hbins⟩ : ∃ rest, h.bins = b0 :: rest := by
    cases hb : h.bins with
    | nil => rw [hb] at hh; cases hh
    | cons a rest =>
        rw [hb, List.head?_cons, Option.some_inj] at hh
        exact ⟨rest, by rw [hh]⟩
  have htw : (b0 :: rest).takeWhile (fun boundary => boundary ≤ q) = [] := by
    rw [List.takeWhile_cons,
      if_neg (by simp only [decide_eq_true_eq]; exact not_le.mpr hq)]
  rw [Histogram.search_bin_index, hbins, htw]
  simp

/-- High clamp: a query at or above the last boundary lands in the last
stat bin. -/
theorem search_bin_index_high {h : Histogram} {bl q : ℚ} (hs : List.Sorted (· ≤ ·) h.bins)
    (hl : h.bins.getLast? = some bl) (hq : bl ≤ q)
    (hnb : 1 ≤ h.gradients.length) (hble : h.gradients.length ≤ h.bins.length) :
    h.search_bin_index q = h.gradients.length - 1 := by
  have hall : h.bins.takeWhile (fun b => b ≤ q) = h.bins := by
    rw [List.takeWhile_eq_self_iff]
    intro x hx
    simpa using le_trans (sorted_le_getLast? hs hx hl) hq
  have hlen : 1 ≤ h.bins.length := le_trans hnb hble
  rw [Histogram.search_bin_index, hall]
  rw [if_neg (by omega)]
  have : h.gradients.length - 1 ≤ h.bins.length - 1 := by omega
  simp [Nat.min_eq_right this]

/-! ## Shape of `from_feature` results -/

theorem from_feature_empty {l : List ℚ} {mb : Nat} (h0 : sorted_values l = []) :
    Histogram.from_feature l mb = some ⟨[], [], []⟩ := by
  rw [Histogram.from_feature]
  simp [h0]

theorem from_feature_single {l : List ℚ} {mb : Nat} {v : ℚ} (h1 : sorted_values l = [v]) :
    Histogram.from_feature l mb = some ⟨[v], [0], [0]⟩ := by
  rw [Histogram.from_feature]
  simp [h1]

theorem from_feature_zero_bins {l : List ℚ} (h2 : 2 ≤ n_unique l) :
    Histogram.from_feature l 0 = none := by
  rw [Histogram.from_feature]
  have hn : (sorted_values l).length = n_unique l := rfl
  rw [hn]
  rw [if_neg (by omega), if_neg (by omega)]
  simp

theorem from_feature_general {l : List ℚ} {mb : Nat} (h2 : 2 ≤ n_unique l) (h1 : 1 ≤ mb) :
    Histogram.from_feature l mb
      = some ⟨quantile_bins (sorted_values l) (min mb (n_unique l - 1)),
              List.replicate (min mb (n_unique l - 1)) 0,
              List.replicate (min mb (n_unique l - 1)) 0⟩ := by
  rw [Histogram.from_feature]
  have hn : (sorted_values l).length = n_unique l := rfl
  rw [hn]
  rw [if_neg (by omega), if_neg (by omega), if_neg (by omega)]

/-- Classification of every `some` result of `from_feature`. -/
theorem from_feature_cases {l : List ℚ} {mb : Nat} {h : Histogram}
    (hf : Histogram.from_feature l mb = some h) :
    (sorted_values l = [] ∧ h = ⟨[], [], []⟩)
    ∨ (∃ v, sorted_values l = [v] ∧ h = ⟨[v], [0], [0]⟩)
    ∨ (2 ≤ n_unique l ∧ 1 ≤ mb ∧
        h = ⟨quantile_bins (sorted_values l) (min mb (n_unique l - 1)),
             List.replicate (min mb (n_unique l - 1)) 0,
             List.replicate (min mb (n_unique l - 1)) 0⟩) := by
  have hn : (sorted_values l).length = n_unique l := rfl
  by_cases hz : sorted_values l = []
  · left
    refine ⟨hz, ?_⟩
    rw [from_feature_empty hz] at hf
    exact (Option.some_inj.mp hf).symm
  · by_cases hone : (sorted_values l).length = 1
    · right; left
      obtain ⟨v, hv⟩ := List.length_eq_one.mp hone
      refine ⟨v, hv, ?_⟩
      rw [from_feature_single hv] at hf
      exact (Option.some_inj.mp hf).symm
    · right; right
      have hlen : 2 ≤ n_unique l := by
        rw [← hn]
        have : (sorted_values l).length ≠ 0 := by
          simpa [List.length_eq_zero] using hz
        omega
      have hmb : 1 ≤ mb := by
        by_contra hmb0
        have : mb = 0 := by omega
        rw [this, from_feature_zero_bins hlen] at hf
        cases hf
      refine ⟨hlen, hmb, ?_⟩
      rw [from_feature_general hlen hmb] at hf
      exact (Option.some_inj.mp hf).symm

/-! ## Properties of the quantile boundary list -/

theorem quantile_bins_length (sv : List ℚ) (nb : Nat) :
    (quantile_bins sv nb).length = nb + 1 := by
  simp [quantile_bins]

theorem quantile_idx_le {n nb i : Nat} (hnb : 1 ≤ nb) (hi : i ≤ nb) :
    (i * (n - 1)) / nb ≤ n - 1 := by
  have h1 : i * (n - 1) ≤ nb * (n - 1) := Nat.mul_le_mul_right _ hi
  have h2 : (i * (n - 1)) / nb ≤ (nb * (n - 1)) / nb := Nat.div_le_div_right h1
  rwa [Nat.mul_div_cancel_left _ (by omega : 0 < nb)] at h2

theorem quantile_bins_getElem? {sv : List ℚ} {nb i : Nat} (hi : i < nb + 1) :
    (quantile_bins sv nb)[i]? = some (sv.getD ((i * (sv.length - 1)) / nb) 0) := by
  rw [quantile_bins, List.getElem?_map, List.getElem?_range hi, Option.map_some']

/-- An index-monotone view of a sorted list through `getD`. -/
theorem sorted_getD_mono {sv : List ℚ} (hs : List.Sorted (· ≤ ·) sv) {i j : Nat}
    (hij : i ≤ j) (hj : j < sv.length) : sv.getD i 0 ≤ sv.getD j 0 := by
  have hi : i < sv.length := lt_of_le_of_lt hij hj
  rw [List.getD_eq_getElem sv 0 hi, List.getD_eq_getElem sv 0 hj]
  exact hs.rel_get_of_le (a := ⟨i, hi⟩) (b := ⟨j, hj⟩) hij

theorem quantile_bins_sorted {sv : List ℚ} (hs : List.Sorted (· ≤ ·) sv)
    {nb : Nat} (hnb : 1 ≤ nb) (hn : 1 ≤ sv.length) :
    List.Sorted (· ≤ ·) (quantile_bins sv nb) := by
  rw [quantile_bins, List.Sorted, List.pairwise_map]
  refine (List.pairwise_lt_range (nb + 1)).imp_of_mem ?_
  intro i j hi hj hij
  rw [List.mem_range] at hi hj
  refine sorted_getD_mono hs (Nat.div_le_div_right (Nat.mul_le_mul_right _ (le_of_lt hij))) ?_
  have := quantile_idx_le (n := sv.length) hnb (by omega : j ≤ nb)
  omega

theorem quantile_bins_head? {sv : List ℚ} {nb : Nat} (hn : 1 ≤ sv.length) (hnb : 1 ≤ nb) :
    (quantile_bins sv nb).head? = sv.head? := by
  rw [List.head?_eq_getElem?, List.head?_eq_getElem?,
    quantile_bins_getElem? (by omega : 0 < nb + 1)]
  rw [Nat.zero_mul, Nat.zero_div, List.getD_eq_getElem sv 0 (by omega : 0 < sv.length),
    List.getElem?_eq_getElem (by omega : 0 < sv.length)]

theorem quantile_bins_getLast? {sv : List ℚ} {nb : Nat} (hn : 1 ≤ sv.length) (hnb : 1 ≤ nb) :
    (quantile_bins sv nb).getLast? = sv.getLast? := by
  rw [List.getLast?_eq_getElem?, List.getLast?_eq_getElem?, quantile_bins_length]
  have hidx : nb + 1 - 1 = nb := by omega
  rw [hidx, quantile_bins_getElem? (by omega : nb < nb + 1)]
  rw [Nat.mul_div_cancel_left _ (by omega : 0 < nb)]
  rw [List.getD_eq_getElem sv 0 (by omega : sv.length - 1 < sv.length),
    List.getElem?_eq_getElem (by omega : sv.length - 1 < sv.length)]

/-! ## Lemmas about `accumulate` -/

theorem search_bin_index_def (h : Histogram) (q : ℚ) :
    h.search_bin_index q =
      if (h.bins.takeWhile (fun b => b ≤ q)).length = 0 then 0
      else min ((h.bins.takeWhile (fun b => b ≤ q)).length - 1) (h.gradients.length - 1) := rfl

/-- The bin search only looks at the boundaries and at the number of stat
bins, so accumulation (which changes neither) cannot move a sample to a
different bin. -/
theorem search_bin_index_congr {h1 h2 : Histogram} (hb : h1.bins = h2.bins)
    (hg : h1.gradients.length = h2.gradients.length) (q : ℚ) :
    h1.search_bin_index q = h2.search_bin_index q := by
  rw [search_bin_index_def, search_bin_index_def, hb, hg]

theorem search_bin_index_lt {h : Histogram} (hg : 1 ≤ h.gradients.length) (q : ℚ) :
    h.search_bin_index q < h.gradients.length := by
  rw [search_bin_index_def]
  by_cases h0 : (h.bins.takeWhile (fun b => b ≤ q)).length = 0
  · rw [if_pos h0]; omega
  · rw [if_neg h0]
    have := Nat.min_le_right ((h.bins.takeWhile (fun b => b ≤ q)).length - 1)
      (h.gradients.length - 1)
    omega

theorem accumulate_step_def (h : Histogram) (x gx hx : ℚ) :
    Histogram.accumulate_step h x gx hx =
      match h.gradients[h.search_bin_index x]?, h.hessians[h.search_bin_index x]? with
      | some gcur, some hcur =>
          some ⟨h.bins, h.gradients.set (h.search_bin_index x) (gcur + gx),
                h.hessians.set (h.search_bin_index x) (hcur + hx)⟩
      | _, _ => none := rfl

theorem accumulate_step_some {h : Histogram} (x gx hx : ℚ)
    (hg : h.search_bin_index x < h.gradients.length)
    (hh : h.search_bin_index x < h.hessians.length) :
    Histogram.accumulate_step h x gx hx
      = some ⟨h.bins,
              h.gradients.set (h.search_bin_index x)
                (h.gradients.getD (h.search_bin_index x) 0 + gx),
              h.hessians.set (h.search_bin_index x)
                (h.hessians.getD (h.search_bin_index x) 0 + hx)⟩ := by
  rw [accumulate_step_def, List.getElem?_eq_getElem hg, List.getElem?_eq_getElem hh]
  rw [List.getD_eq_getElem _ _ hg, List.getD_eq_getElem _ _ hh]

theorem accumulate_step_some_inv {h h1 : Histogram} {x gx hx : ℚ}
    (hstep : Histogram.accumulate_step h x gx hx = some h1) :
    h1.bins = h.bins ∧ h1.gradients.length = h.gradients.length
      ∧ h1.hessians.length = h.hessians.length := by
  rw [accumulate_step_def] at hstep
  cases hg : h.gradients[h.search_bin_index x]? with
  | none => rw [hg] at hstep; cases hh : h.hessians[h.search_bin_index x]? <;>
      rw [hh] at hstep <;> cases hstep
  | some gcur =>
      rw [hg] at hstep
      cases hh : h.hessians[h.search_bin_index x]? with
      | none => rw [hh] at hstep; cases hstep
      | some hcur =>
          rw [hh] at hstep
          have := Option.some_inj.mp hstep
          rw [← this]
          simp [List.length_set]

theorem accumulate_nil (h : Histogram) (g hs : List ℚ) :
    Histogram.accumulate h [] g hs = some h := rfl

theorem accumulate_cons (h : Histogram) (x gx hx : ℚ) (fv g hs : List ℚ) :
    Histogram.accumulate h (x :: fv) (gx :: g) (hx :: hs)
      = (Histogram.accumulate_step h x gx hx).bind
          fun h' => Histogram.accumulate h' fv g hs := rfl

theorem accumulate_gradients_nil (h : Histogram) (x : ℚ) (fv hs : List ℚ) :
    Histogram.accumulate h (x :: fv) [] hs = none := rfl

theorem accumulate_hessians_nil (h : Histogram) (x gx : ℚ) (fv g : List ℚ) :
    Histogram.accumulate h (x :: fv) (gx :: g) [] = none := rfl

theorem accumulate_some_inv : ∀ {fv g hs : List ℚ} {h h' : Histogram},
    Histogram.accumulate h fv g hs = some h' →
    h'.bins = h.bins ∧ h'.gradients.length = h.gradients.length
      ∧ h'.hessians.length = h.hessians.length := by
  intro fv
  induction fv with
  | nil =>
      intro g hs h h' hacc
      rw [accumulate_nil, Option.some_inj] at hacc
      rw [← hacc]
      exact ⟨rfl, rfl, rfl⟩
  | cons x fv ih =>
      intro g hs h h' hacc
      cases g with
      | nil => rw [accumulate_gradients_nil] at hacc; cases hacc
      | cons gx g =>
          cases hs with
          | nil => rw [accumulate_hessians_nil] at hacc; cases hacc
          | cons hx hs =>
              rw [accumulate_cons] at hacc
              cases hstep : Histogram.accumulate_step h x gx hx with
              | none => rw [hstep] at hacc; cases hacc
              | some h1 =>
                  rw [hstep, Option.some_bind] at hacc
                  obtain ⟨hb1, hg1, hh1⟩ := accumulate_step_some_inv hstep
                  obtain ⟨hb2, hg2, hh2⟩ := ih hacc
                  exact ⟨hb2.trans hb1, hg2.trans hg1, hh2.trans hh1⟩

theorem accumulate_isSome : ∀ {fv g hs : List ℚ} {h : Histogram},
    1 ≤ h.gradients.length → h.gradients.length = h.hessians.length →
    fv.length ≤ g.length → fv.length ≤ hs.length →
    ∃ h', Histogram.accumulate h fv g hs = some h' := by
  intro fv
  induction fv with
  | nil => intro g hs h _ _ _ _; exact ⟨h, accumulate_nil h g hs⟩
  | cons x fv ih =>
      intro g hs h hg hgh hlg hlh
      cases g with
      | nil => simp at hlg
      | cons gx g =>
          cases hs with
          | nil => simp at hlh
          | cons hx hs =>
              have hbg : h.search_bin_index x < h.gradients.length :=
                search_bin_index_lt hg x
              have hbh : h.search_bin_index x < h.hessians.length := hgh ▸ hbg
              rw [accumulate_cons, accumulate_step_some x gx hx hbg hbh, Option.some_bind]
              exact ih (by simpa [List.length_set] using hg)
                (by simpa [List.length_set] using hgh)
                (by simpa using hlg) (by simpa using hlh)

/-- The amended fail-fast behavior of `accumulate`: a gradients or hessians
sequence shorter than the feature-values sequence makes the loop read past
an end, a panic. -/
theorem accumulate_short_none : ∀ {fv g hs : List ℚ} (h : Histogram),
    (g.length < fv.length ∨ hs.length < fv.length) →
    Histogram.accumulate h fv g hs = none := by
  intro fv
  induction fv with
  | nil => intro g hs h hlt; simp at hlt
  | cons x fv ih =>
      intro g hs h hlt
      cases g with
      | nil => exact accumulate_gradients_nil h x fv hs
      | cons gx g =>
          cases hs with
          | nil => exact accumulate_hessians_nil h x gx fv g
          | cons hx hs =>
              rw [accumulate_cons]
              cases hstep : Histogram.accumulate_step h x gx hx with
              | none => rfl
              | some h1 =>
                  rw [Option.some_bind]
                  apply ih
                  simp at hlt
                  omega

/-- The `accumulate` loop never reads `gradients`/`hessians` entries at or
beyond `feature_values.len()`: truncating both stat-input vectors to that
length leaves the result (including any panic) unchanged. -/
theorem accumulate_take_eq : ∀ {fv g hs : List ℚ} (h : Histogram),
    Histogram.accumulate h fv g hs
      = Histogram.accumulate h fv (g.take fv.length) (hs.take fv.length) := by
  intro fv
  induction fv with
  | nil => intro g hs h; rw [accumulate_nil, accumulate_nil]
  | cons x fv ih =>
      intro g hs h
      cases g with
      | nil =>
          rw [accumulate_gradients_nil, List.take_nil, accumulate_gradients_nil]
      | cons gx g =>
          cases hs with
          | nil =>
              rw [accumulate_hessians_nil, List.take_nil, List.length_cons,
                List.take_succ_cons, accumulate_hessians_nil]
          | cons hx hs =>
              rw [List.length_cons, List.take_succ_cons, List.take_succ_cons,
                accumulate_cons, accumulate_cons]
              cases Histogram.accumulate_step h x gx hx with
              | none => rfl
              | some h1 => rw [Option.some_bind, Option.some_bind]; exact ih h1

/-! ## Pointwise-addition lemmas used for the accumulation algebra -/

theorem zipWith_add_replicate_zero : ∀ {X : List ℚ} {k : Nat}, X.length = k →
    List.zipWith (· + ·) (List.replicate k 0) X = X := by
  intro X
  induction X with
  | nil => intro k hk; subst hk; rfl
  | cons x X ih =>
      intro k hk
      cases k with
      | zero => cases hk
      | succ k' =>
          rw [List.replicate_succ, List.zipWith_cons_cons, zero_add,
            ih (by simpa using hk)]

theorem zipWith_add_self : ∀ (X : List ℚ),
    List.zipWith (· + ·) X X = X.map (fun x => 2 * x) := by
  intro X
  induction X with
  | nil => rfl
  | cons x X ih => rw [List.zipWith_cons_cons, List.map_cons, ih, two_mul]

theorem zipWith_add_set : ∀ (G X : List ℚ) (i : Nat) (a : ℚ), i < G.length →
    G.length = X.length →
    List.zipWith (· + ·) (G.set i a) X
      = (List.zipWith (· + ·) G X).set i (a + X.getD i 0) := by
  intro G
  induction G with
  | nil => intro X i a hi _; simp at hi
  | cons c G ih =>
      intro X i a hi hlen
      cases X with
      | nil => simp at hlen
      | cons xx X =>
          cases i with
          | zero =>
              rw [List.set_cons_zero, List.zipWith_cons_cons, List.zipWith_cons_cons,
                List.set_cons_zero, List.getD_cons_zero]
          | succ i' =>
              rw [List.set_cons_succ, List.zipWith_cons_cons, List.zipWith_cons_cons,
                List.set_cons_succ, List.getD_cons_succ,
                ih X i' a (by simpa using hi) (by simpa using hlen)]

/-- Accumulating into a histogram whose stat vectors have been shifted by
fixed vectors produces the same shift of the unshifted result: the deltas
added by `accumulate` do not depend on the current stat sums. -/
theorem accumulate_step_shift {h h1 : Histogram} {X Y : List ℚ} {x gx hx : ℚ}
    (hX : X.length = h.gradients.length) (hY : Y.length = h.hessians.length)
    (hstep : Histogram.accumulate_step h x gx hx = some h1) :
    Histogram.accumulate_step
        ⟨h.bins, List.zipWith (· + ·) h.gradients X, List.zipWith (· + ·) h.hessians Y⟩ x gx hx
      = some ⟨h1.bins, List.zipWith (· + ·) h1.gradients X,
              List.zipWith (· + ·) h1.hessians Y⟩ := by
  rw [accumulate_step_def] at hstep
  cases hg : h.gradients[h.search_bin_index x]? with
  | none => rw [hg] at hstep; cases hh : h.hessians[h.search_bin_index x]? <;>
      rw [hh] at hstep <;> cases hstep
  | some gcur =>
      rw [hg] at hstep
      cases hh : h.hessians[h.search_bin_index x]? with
      | none => rw [hh] at hstep; cases hstep
      | some hcur =>
          rw [hh] at hstep
          have h1eq : h1 = ⟨h.bins, h.gradients.set (h.search_bin_index x) (gcur + gx),
              h.hessians.set (h.search_bin_index x) (hcur + hx)⟩ :=
            (Option.some_inj.mp hstep).symm
          obtain ⟨hgb, hgval⟩ := List.getElem?_eq_some_iff.mp hg
          obtain ⟨hhb, hhval⟩ := List.getElem?_eq_some_iff.mp hh
          have hsearch : Histogram.search_bin_index
              (Histogram.mk h.bins (List.zipWith (· + ·) h.gradients X)
                (List.zipWith (· + ·) h.hessians Y)) x = h.search_bin_index x := by
            refine @search_bin_index_congr
              (Histogram.mk h.bins (List.zipWith (· + ·) h.gradients X)
                (List.zipWith (· + ·) h.hessians Y)) h rfl ?_ x
            show (List.zipWith (· + ·) h.gradients X).length = h.gradients.length
            rw [List.length_zipWith, hX, Nat.min_self]
          rw [accumulate_step_def]
          have hXb : h.search_bin_index x < X.length := by omega
          have hYb : h.search_bin_index x < Y.length := by omega
          have hgz : (List.zipWith (· + ·) h.gradients X)[(Histogram.search_bin_index
              (Histogram.mk h.bins (List.zipWith (· + ·) h.gradients X)
                (List.zipWith (· + ·) h.hessians Y)) x)]?
              = some (gcur + X.getD (h.search_bin_index x) 0) := by
            rw [hsearch, List.getElem?_zipWith, hg,
              List.getElem?_eq_getElem hXb, List.getD_eq_getElem _ _ hXb]
          have hhz : (List.zipWith (· + ·) h.hessians Y)[(Histogram.search_bin_index
              (Histogram.mk h.bins (List.zipWith (· + ·) h.gradients X)
                (List.zipWith (· + ·) h.hessians Y)) x)]?
              = some (hcur + Y.getD (h.search_bin_index x) 0) := by
            rw [hsearch, List.getElem?_zipWith, hh,
              List.getElem?_eq_getElem hYb, List.getD_eq_getElem _ _ hYb]
          rw [hgz, hhz, hsearch]
          show some (Histogram.mk h.bins
              ((List.zipWith (· + ·) h.gradients X).set (h.search_bin_index x)
                (gcur + X.getD (h.search_bin_index x) 0 + gx))
              ((List.zipWith (· + ·) h.hessians Y).set (h.search_bin_index x)
                (hcur + Y.getD (h.search_bin_index x) 0 + hx)))
            = some (Histogram.mk h1.bins (List.zipWith (· + ·) h1.gradients X)
                    (List.zipWith (· + ·) h1.hessians Y))
          rw [h1eq]
          show some (Histogram.mk h.bins
              ((List.zipWith (· + ·) h.gradients X).set (h.search_bin_index x)
                (gcur + X.getD (h.search_bin_index x) 0 + gx))
              ((List.zipWith (· + ·) h.hessians Y).set (h.search_bin_index x)
                (hcur + Y.getD (h.search_bin_index x) 0 + hx)))
            = some (Histogram.mk h.bins
                (List.zipWith (· + ·) (h.gradients.set (h.search_bin_index x) (gcur + gx)) X)
                (List.zipWith (· + ·) (h.hessians.set (h.search_bin_index x) (hcur + hx)) Y))
          rw [zipWith_add_set _ _ _ _ hgb hX.symm, zipWith_add_set _ _ _ _ hhb hY.symm]
          rw [add_right_comm gcur (X.getD (h.search_bin_index x) 0) gx,
            add_right_comm hcur (Y.getD (h.search_bin_index x) 0) hx]

theorem accumulate_shift : ∀ {fv g hs X Y : List ℚ} {h h' : Histogram},
    X.length = h.gradients.length → Y.length = h.hessians.length →
    Histogram.accumulate h fv g hs = some h' →
    Histogram.accumulate
        ⟨h.bins, List.zipWith (· + ·) h.gradients X, List.zipWith (· + ·) h.hessians Y⟩ fv g hs
      = some ⟨h'.bins, List.zipWith (· + ·) h'.gradients X,
              List.zipWith (· + ·) h'.hessians Y⟩ := by
  intro fv
  induction fv with
  | nil =>
      intro g hs X Y h h' hX hY hacc
      rw [accumulate_nil, Option.some_inj] at hacc
      rw [accumulate_nil, ← hacc]
  | cons x fv ih =>
      intro g hs X Y h h' hX hY hacc
      cases g with
      | nil => rw [accumulate_gradients_nil] at hacc; cases hacc
      | cons gx g =>
          cases hs with
          | nil => rw [accumulate_hessians_nil] at hacc; cases hacc
          | cons hx hs =>
              rw [accumulate_cons] at hacc
              cases hstep : Histogram.accumulate_step h x gx hx with
              | none => rw [hstep] at hacc; cases hacc
              | some h1 =>
                  rw [hstep, Option.some_bind] at hacc
                  obtain ⟨hb1, hg1, hh1⟩ := accumulate_step_some_inv hstep
                  rw [accumulate_cons, accumulate_step_shift hX hY hstep, Option.some_bind]
                  exact ih (X := X) (Y := Y)
                    (by rw [hX, hg1]) (by rw [hY, hh1]) hacc

/-- Double accumulation from zero-initialized stat bins doubles every bin. -/
theorem accumulate_twice_from_zeros {B : List ℚ} {k : Nat} (hk : 1 ≤ k)
    {fv g hs : List ℚ} (hg : fv.length ≤ g.length) (hh : fv.length ≤ hs.length) :
    ∃ h1 h2,
      Histogram.accumulate (Histogram.mk B (List.replicate k 0) (List.replicate k 0)) fv g hs
        = some h1
      ∧ Histogram.accumulate h1 fv g hs = some h2
      ∧ h2.gradients = h1.gradients.map (fun x => 2 * x)
      ∧ h2.hessians = h1.hessians.map (fun x => 2 * x) := by
  obtain ⟨h1, hacc1⟩ := accumulate_isSome
    (h := Histogram.mk B (List.replicate k 0) (List.replicate k 0))
    (by simpa using hk) (by simp) hg hh
  obtain ⟨hb1, hg1, hh1⟩ := accumulate_some_inv hacc1
  have hb1' : h1.bins = B := hb1
  have hg1' : h1.gradients.length = k := by simpa using hg1
  have hh1' : h1.hessians.length = k := by simpa using hh1
  have hshift := accumulate_shift (X := h1.gradients) (Y := h1.hessians)
    (h := Histogram.mk B (List.replicate k 0) (List.replicate k 0))
    (by simpa using hg1') (by simpa using hh1') hacc1
  have hinput : Histogram.mk
      (Histogram.mk B (List.replicate k 0) (List.replicate k 0)).bins
      (List.zipWith (· + ·)
        (Histogram.mk B (List.replicate k 0) (List.replicate k 0)).gradients h1.gradients)
      (List.zipWith (· + ·)
        (Histogram.mk B (List.replicate k 0) (List.replicate k 0)).hessians h1.hessians)
      = h1 := by
    show Histogram.mk B (List.zipWith (· + ·) (List.replicate k 0) h1.gradients)
        (List.zipWith (· + ·) (List.replicate k 0) h1.hessians) = h1
    rw [zipWith_add_replicate_zero hg1', zipWith_add_replicate_zero hh1', ← hb1']
  rw [hinput] at hshift
  rw [zipWith_add_self, zipWith_add_self] at hshift
  exact ⟨h1, _, hacc1, hshift, rfl, rfl⟩

/-! ## The degenerate single-boundary histogram -/

theorem search_bin_index_single (v a b x : ℚ) :
    (Histogram.mk [v] [a] [b]).search_bin_index x = 0 := by
  rw [search_bin_index_def]
  by_cases hvx : v ≤ x
  · simp [List.takeWhile_cons, hvx]
  · simp [List.takeWhile_cons, hvx]

theorem accumulate_single_bin : ∀ {fv g hs : List ℚ} (v a b : ℚ),
    fv.length = g.length → fv.length = hs.length →
    Histogram.accumulate (Histogram.mk [v] [a] [b]) fv g hs
      = some (Histogram.mk [v] [a + g.sum] [b + hs.sum]) := by
  intro fv
  induction fv with
  | nil =>
      intro g hs v a b hg hhs
      have hgnil : g = [] := List.length_eq_zero.mp (by simpa using hg.symm)
      have hhnil : hs = [] := List.length_eq_zero.mp (by simpa using hhs.symm)
      subst hgnil hhnil
      rw [accumulate_nil]
      simp
  | cons x fv ih =>
      intro g hs v a b hg hhs
      cases g with
      | nil => simp at hg
      | cons gx g =>
          cases hs with
          | nil => simp at hhs
          | cons hx hs =>
              rw [accumulate_cons]
              have hstep : Histogram.accumulate_step (Histogram.mk [v] [a] [b]) x gx hx
                  = some (Histogram.mk [v] [a + gx] [b + hx]) := by
                rw [accumulate_step_def, search_bin_index_single]
                rfl
              rw [hstep, Option.some_bind,
                ih v (a + gx) (b + hx) (by simpa using hg) (by simpa using hhs)]
              rw [List.sum_cons, List.sum_cons, ← add_assoc, ← add_assoc]

/-! ## Descent lemmas for `Tree::predict` -/

theorem predict_recursive_split (i : Nat) (t : ℚ) (l r : TreeNode) (fs : List ℚ) :
    Tree.predict_recursive (.Split i t l r) fs =
      match fs[i]? with
      | none => none
      | some v =>
          if v < t then Tree.predict_recursive l fs else Tree.predict_recursive r fs := rfl

theorem predict_recursive_split_some {i : Nat} {t v0 : ℚ} {l r : TreeNode} {fs : List ℚ}
    (hfs : fs[i]? = some v0) :
    Tree.predict_recursive (.Split i t l r) fs =
      if v0 < t then Tree.predict_recursive l fs else Tree.predict_recursive r fs := by
  rw [predict_recursive_split, hfs]

theorem predict_recursive_split_none {i : Nat} {t : ℚ} {l r : TreeNode} {fs : List ℚ}
    (hfs : fs[i]? = none) :
    Tree.predict_recursive (.Split i t l r) fs = none := by
  rw [predict_recursive_split, hfs]

theorem reached_leaf_predict {root n : TreeNode} {fs : List ℚ} (hr : Reached root fs n) :
    ∀ {v : ℚ}, n = .Leaf v → Tree.predict_recursive root fs = some v := by
  induction hr with
  | refl n fs => intro v hv; subst hv; rfl
  | left hfs hlt _ ih =>
      intro v hv
      rw [predict_recursive_split_some hfs, if_pos hlt]
      exact ih hv
  | right hfs hlt _ ih =>
      intro v hv
      rw [predict_recursive_split_some hfs, if_neg hlt]
      exact ih hv

theorem reached_split_oob_predict {root n : TreeNode} {fs : List ℚ} (hr : Reached root fs n) :
    ∀ {i : Nat} {t : ℚ} {l r : TreeNode}, n = .Split i t l r → fs.length ≤ i →
      Tree.predict_recursive root fs = none := by
  induction hr with
  | refl n fs =>
      intro i t l r hn hlen
      subst hn
      exact predict_recursive_split_none (List.getElem?_eq_none hlen)
  | left hfs hlt _ ih =>
      intro i t l r hn hlen
      rw [predict_recursive_split_some hfs, if_pos hlt]
      exact ih hn hlen
  | right hfs hlt _ ih =>
      intro i t l r hn hlen
      rw [predict_recursive_split_some hfs, if_neg hlt]
      exact ih hn hlen

/-! ## Claims -/

/-- **C1** as stated is false on the code: a non-empty column with a single
distinct value, e.g. `[42]` with `max_bins = 5`, produces `bins = [42]` and
one stat bin, so `len(bins) - 1 = 0` while `len(gradients) = 1`. -/
theorem c1_counterexample :
    ¬ (∀ (l : List ℚ) (mb : Nat) (h : Histogram), l ≠ [] →
        Histogram.from_feature l mb = some h →
        (h.bins.length - 1 = h.gradients.length
          ∧ h.gradients.length = h.hessians.length)) := by
  intro hall
  have h42 : Histogram.from_feature [(42 : ℚ)] 5 = some (Histogram.mk [42] [0] [0]) := by
    decide
  have hc := hall [42] 5 (Histogram.mk [42] [0] [0]) (by simp) h42
  simp at hc

/-- **C1** (amended): for every feature column with at least two distinct
values and every `max_bins`, a histogram returned by `from_feature`
satisfies `len(bins) - 1 = len(gradients) = len(hessians)`. -/
theorem c1_stat_bin_lengths (l : List ℚ) (mb : Nat) (h : Histogram)
    (hn : 2 ≤ n_unique l) (hf : Histogram.from_feature l mb = some h) :
    h.bins.length - 1 = h.gradients.length
      ∧ h.gradients.length = h.hessians.length := by
  rcases from_feature_cases hf with ⟨hz, hhist⟩ | ⟨v, hv, hhist⟩ | ⟨h2u, h1m, hhist⟩
  · exfalso
    have hzero : n_unique l = 0 := by rw [n_unique, hz]; rfl
    omega
  · exfalso
    have hone : n_unique l = 1 := by rw [n_unique, hv]; rfl
    omega
  · subst hhist
    constructor <;> simp [quantile_bins_length]

theorem c1_stat_bin_lengths_witness :
    2 ≤ n_unique [(0 : ℚ), 1]
      ∧ ((Histogram.mk [(0 : ℚ), 1] [0] [0]).bins.length - 1
            = (Histogram.mk [(0 : ℚ), 1] [0] [0]).gradients.length
          ∧ (Histogram.mk [(0 : ℚ), 1] [0] [0]).gradients.length
            = (Histogram.mk [(0 : ℚ), 1] [0] [0]).hessians.length) :=
  ⟨by decide,
    c1_stat_bin_lengths [0, 1] 1 (Histogram.mk [0, 1] [0] [0]) (by decide) (by decide)⟩

/-- **C2** as stated is false on the code: `accumulate` with
`feature_values = [0]`, `gradients = [1, 2]`, `hessians = [3, 4]` (unequal
lengths) succeeds, silently ignoring the extra gradient/hessian entries,
instead of failing with an error. -/
theorem c2_counterexample :
    ¬ (∀ (h : Histogram) (fv g hs : List ℚ),
        ¬ (fv.length = g.length ∧ fv.length = hs.length) →
        Histogram.accumulate h fv g hs = none) := by
  intro hall
  have hne := hall (Histogram.mk [0, 1] [0] [0]) [0] [1, 2] [3, 4] (by simp)
  have hsome : (Histogram.accumulate (Histogram.mk [(0 : ℚ), 1] [0] [0])
      [0] [1, 2] [3, 4]).isSome = true := by decide
  rw [hne] at hsome
  simp at hsome

/-- **C2** (amended): `accumulate` performs no length check at all. When
`gradients` or `hessians` is shorter than `feature_values`, the loop's
indexed read goes out of bounds and the call fails with the Rust index
panic (modelled as `none`), not with a dedicated `InputLengthMismatch`
error; entries of `gradients`/`hessians` at or beyond
`feature_values.len()` are never read, so the call behaves exactly as if
both were silently truncated to `feature_values`' length. -/
theorem c2_accumulate_no_length_check (h : Histogram) (fv g hs : List ℚ) :
    ((g.length < fv.length ∨ hs.length < fv.length) →
        Histogram.accumulate h fv g hs = none)
      ∧ Histogram.accumulate h fv g hs
          = Histogram.accumulate h fv (g.take fv.length) (hs.take fv.length) :=
  ⟨accumulate_short_none h, accumulate_take_eq h⟩

theorem c2_accumulate_no_length_check_witness :
    (([] : List ℚ).length < [(7 : ℚ)].length ∨ ([] : List ℚ).length < [(7 : ℚ)].length)
      ∧ Histogram.accumulate (Histogram.mk [] [] []) [(7 : ℚ)] [] [] = none
      ∧ Histogram.accumulate (Histogram.mk [(0 : ℚ), 1] [0] [0]) [0] [1, 2] [3, 4]
          = Histogram.accumulate (Histogram.mk [(0 : ℚ), 1] [0] [0]) [0]
              ([(1 : ℚ), 2].take [(0 : ℚ)].length) ([(3 : ℚ), 4].take [(0 : ℚ)].length) :=
  ⟨Or.inl (by decide),
    (c2_accumulate_no_length_check (Histogram.mk [] [] []) [7] [] []).1
      (Or.inl (by decide)),
    (c2_accumulate_no_length_check (Histogram.mk [0, 1] [0] [0]) [0] [1, 2] [3, 4]).2⟩

/-- **C3**: if the descent of `Tree::predict` reaches a `Split` node whose
`feature_index` is out of bounds of the feature vector, `predict` fails
(the checked slice access panics, modelled as `none`) rather than reading
garbage or wrapping. -/
theorem c3_predict_oob_fails (root : TreeNode) (fs : List ℚ) (i : Nat) (t : ℚ)
    (l r : TreeNode) (hr : Reached root fs (.Split i t l r)) (hoob : fs.length ≤ i) :
    Tree.predict (Tree.new root) fs = none :=
  reached_split_oob_predict hr rfl hoob

theorem c3_predict_oob_fails_witness :
    Reached (.Split 1 0 (.Leaf 1) (.Leaf 2)) [(3 : ℚ)] (.Split 1 0 (.Leaf 1) (.Leaf 2))
      ∧ [(3 : ℚ)].length ≤ 1
      ∧ Tree.predict (Tree.new (.Split 1 0 (.Leaf 1) (.Leaf 2))) [(3 : ℚ)] = none :=
  ⟨Reached.refl _ _, by decide,
    c3_predict_oob_fails _ _ 1 0 _ _ (Reached.refl _ _) (by decide)⟩

/-- **C4**: on any histogram with sorted boundaries, at least one stat bin
and no more stat bins than boundaries (the invariants of every histogram
`from_feature` constructs), `search_bin_index` returns the index of the
rightmost boundary `≤ value` clamped into `[0, num_bins - 1]`, with the
two edge clamps of the spec. -/
theorem c4_search_bin_index_contract (h : Histogram)
    (hsort : List.Sorted (· ≤ ·) h.bins) (hnb : 1 ≤ h.gradients.length)
    (hlen : h.gradients.length ≤ h.bins.length) (q : ℚ) :
    h.search_bin_index q = spec_bin_index h.bins h.gradients.length q
      ∧ (∀ b0, h.bins.head? = some b0 → q < b0 → h.search_bin_index q = 0)
      ∧ (∀ bl, h.bins.getLast? = some bl → bl ≤ q →
          h.search_bin_index q = h.gradients.length - 1) := by
  refine ⟨search_bin_index_eq_spec hsort q, ?_, ?_⟩
  · intro b0 hh0 hq0
    exact search_bin_index_low hh0 hq0
  · intro bl hhl hql
    exact search_bin_index_high hsort hhl hql hnb hlen

theorem c4_search_bin_index_contract_witness :
    List.Sorted (· ≤ ·)
        (Histogram.mk [(0 : ℚ), 2, 4, 6, 9] [0, 0, 0, 0] [0, 0, 0, 0]).bins
      ∧ 1 ≤ (Histogram.mk [(0 : ℚ), 2, 4, 6, 9] [0, 0, 0, 0] [0, 0, 0, 0]).gradients.length
      ∧ ((Histogram.mk [(0 : ℚ), 2, 4, 6, 9] [0, 0, 0, 0] [0, 0, 0, 0]).search_bin_index 7
          = spec_bin_index [(0 : ℚ), 2, 4, 6, 9] 4 7)
      ∧ (Histogram.mk [(0 : ℚ), 2, 4, 6, 9] [0, 0, 0, 0] [0, 0, 0, 0]).search_bin_index 7 = 3
      ∧ (Histogram.mk [(0 : ℚ), 2, 4, 6, 9] [0, 0, 0, 0] [0, 0, 0, 0]).search_bin_index 10
          = 3 :=
  ⟨by decide, by decide,
    (c4_search_bin_index_contract _ (by decide) (by decide) (by decide) 7).1,
    by decide, by decide⟩

/-- **C5** as stated is false on the code: with at least two distinct
values and `max_bins = 0` we get `num_bins = 0` and the boundary loop
computes `(0 * (n_unique - 1)) / 0`, an integer division by zero (a Rust
panic), so no histogram is produced at all. -/
theorem c5_counterexample :
    ¬ (∀ (l : List ℚ) (mb : Nat), 2 ≤ n_unique l →
        (Histogram.from_feature l mb).isSome = true) := by
  intro hall
  have h01 := hall [0, 1] 0 (by decide)
  have hnone : Histogram.from_feature [(0 : ℚ), 1] 0 = none := by decide
  rw [hnone] at h01
  simp at h01

/-- **C5** (amended): for `n_unique ≥ 2` and `max_bins ≥ 1`,
`from_feature` sets `num_bins = min(max_bins, n_unique - 1)` and produces
`num_bins + 1` boundaries sampled at `floor(i * (n_unique - 1) / num_bins)`
in the sorted distinct values, with `num_bins` zero-initialized stat bins. -/
theorem c5_quantile_formula (l : List ℚ) (mb : Nat) (h2 : 2 ≤ n_unique l) (h1 : 1 ≤ mb) :
    ∃ h, Histogram.from_feature l mb = some h
      ∧ h.bins.length = min mb (n_unique l - 1) + 1
      ∧ (∀ i, i ≤ min mb (n_unique l - 1) →
          h.bins[i]? = some ((sorted_values l).getD
            ((i * (n_unique l - 1)) / min mb (n_unique l - 1)) 0))
      ∧ h.gradients = List.replicate (min mb (n_unique l - 1)) 0
      ∧ h.hessians = List.replicate (min mb (n_unique l - 1)) 0 := by
  refine ⟨_, from_feature_general h2 h1, quantile_bins_length _ _, ?_, rfl, rfl⟩
  intro i hi
  exact quantile_bins_getElem? (by omega)

theorem c5_quantile_formula_witness :
    2 ≤ n_unique [(0 : ℚ), 1, 2, 3, 4, 5, 6, 7, 8, 9]
      ∧ 1 ≤ 4
      ∧ (∃ h, Histogram.from_feature [(0 : ℚ), 1, 2, 3, 4, 5, 6, 7, 8, 9] 4 = some h
          ∧ h.bins.length = min 4 (n_unique [(0 : ℚ), 1, 2, 3, 4, 5, 6, 7, 8, 9] - 1) + 1
          ∧ (∀ i, i ≤ min 4 (n_unique [(0 : ℚ), 1, 2, 3, 4, 5, 6, 7, 8, 9] - 1) →
              h.bins[i]? = some ((sorted_values [(0 : ℚ), 1, 2, 3, 4, 5, 6, 7, 8, 9]).getD
                ((i * (n_unique [(0 : ℚ), 1, 2, 3, 4, 5, 6, 7, 8, 9] - 1))
                  / min 4 (n_unique [(0 : ℚ), 1, 2, 3, 4, 5, 6, 7, 8, 9] - 1)) 0))
          ∧ h.gradients = List.replicate (min 4 (n_unique [(0 : ℚ), 1, 2, 3, 4, 5, 6, 7, 8, 9] - 1)) 0
          ∧ h.hessians = List.replicate (min 4 (n_unique [(0 : ℚ), 1, 2, 3, 4, 5, 6, 7, 8, 9] - 1)) 0)
      ∧ Histogram.from_feature [(0 : ℚ), 1, 2, 3, 4, 5, 6, 7, 8, 9] 4
          = some (Histogram.mk [0, 2, 4, 6, 9] [0, 0, 0, 0] [0, 0, 0, 0]) :=
  ⟨by decide, by decide, c5_quantile_formula _ 4 (by decide) (by decide), by decide⟩

/-- **C6**: `Tree::predict` performs the strict-less-than descent (left on
`<`, right otherwise, so a value equal to the threshold routes right) and
returns the value of the leaf the descent reaches; in particular, for the
root split on feature 0 at threshold 5 with leaves 10 and 20,
`predict [3] = 10` and `predict [5] = 20`. -/
theorem c6_predict_descent :
    (∀ (root : TreeNode) (fs : List ℚ) (v : ℚ),
        Reached root fs (.Leaf v) → Tree.predict (Tree.new root) fs = some v)
      ∧ Tree.predict (Tree.new (.Split 0 5 (.Leaf 10) (.Leaf 20))) [3] = some 10
      ∧ Tree.predict (Tree.new (.Split 0 5 (.Leaf 10) (.Leaf 20))) [5] = some 20 := by
  refine ⟨?_, by decide, by decide⟩
  intro root fs v hr
  exact reached_leaf_predict hr rfl

theorem c6_predict_descent_witness :
    Reached (.Split 0 5 (.Leaf 10) (.Leaf 20)) [(3 : ℚ)] (.Leaf 10)
      ∧ Tree.predict (Tree.new (.Split 0 5 (.Leaf 10) (.Leaf 20))) [(3 : ℚ)] = some 10 := by
  have hr : Reached (.Split 0 5 (.Leaf 10) (.Leaf 20)) [(3 : ℚ)] (.Leaf 10) :=
    Reached.left rfl (by decide) (Reached.refl _ _)
  exact ⟨hr, c6_predict_descent.1 _ _ _ hr⟩

/-- **C7**: on a freshly constructed histogram from a non-empty column,
accumulating the same equal-length batch twice yields bin sums exactly
double those of accumulating it once. -/
theorem c7_double_accumulate (col : List ℚ) (mb : Nat) (hist : Histogram)
    (fv g hs : List ℚ) (hf : Histogram.from_feature col mb = some hist)
    (hcol : col ≠ []) (hg : fv.length = g.length) (hh : fv.length = hs.length) :
    ∃ h1 h2, Histogram.accumulate hist fv g hs = some h1
      ∧ Histogram.accumulate h1 fv g hs = some h2
      ∧ h2.gradients = h1.gradients.map (fun x => 2 * x)
      ∧ h2.hessians = h1.hessians.map (fun x => 2 * x) := by
  rcases from_feature_cases hf with ⟨hz, hhist⟩ | ⟨v, hv, hhist⟩ | ⟨h2u, h1m, hhist⟩
  · exact absurd (sorted_values_eq_nil_iff.mp hz) hcol
  · subst hhist
    exact accumulate_twice_from_zeros (B := [v]) (k := 1) le_rfl
      (le_of_eq hg) (le_of_eq hh)
  · subst hhist
    exact accumulate_twice_from_zeros (k := min mb (n_unique col - 1)) (by omega)
      (le_of_eq hg) (le_of_eq hh)

theorem c7_double_accumulate_witness :
    Histogram.from_feature [(0 : ℚ), 1] 1 = some (Histogram.mk [0, 1] [0] [0])
      ∧ ([(0 : ℚ), 1] ≠ [])
      ∧ [(5 : ℚ)].length = [(1 : ℚ)].length
      ∧ [(5 : ℚ)].length = [(2 : ℚ)].length
      ∧ (∃ h1 h2,
          Histogram.accumulate (Histogram.mk [(0 : ℚ), 1] [0] [0]) [5] [1] [2] = some h1
          ∧ Histogram.accumulate h1 [5] [1] [2] = some h2
          ∧ h2.gradients = h1.gradients.map (fun x => 2 * x)
          ∧ h2.hessians = h1.hessians.map (fun x => 2 * x)) :=
  ⟨by decide, by decide, rfl, rfl,
    c7_double_accumulate [0, 1] 1 (Histogram.mk [0, 1] [0] [0]) [5] [1] [2]
      (by decide) (by decide) rfl rfl⟩

/-- **C8**: `from_feature` is order-independent — permuting the feature
column yields an identical result (identical histogram, or the identical
panic). -/
theorem c8_from_feature_perm (l l2 : List ℚ) (mb : Nat) (hp : l.Perm l2) :
    Histogram.from_feature l mb = Histogram.from_feature l2 mb := by
  unfold Histogram.from_feature
  rw [sorted_values_perm_congr hp]

theorem c8_from_feature_perm_witness :
    ([(1 : ℚ), 5, 10, 1, 5, 10].Perm [10, 5, 1, 10, 5, 1])
      ∧ Histogram.from_feature [(1 : ℚ), 5, 10, 1, 5, 10] 10
          = Histogram.from_feature [(10 : ℚ), 5, 1, 10, 5, 1] 10 :=
  ⟨by decide, c8_from_feature_perm _ _ 10 (by decide)⟩

/-- **C9**: for a non-empty column, the boundary list of a histogram
returned by `from_feature` is non-decreasing, its first boundary is the
minimum observed value, and its last boundary is the maximum. -/
theorem c9_bins_sorted_min_max (l : List ℚ) (mb : Nat) (h : Histogram)
    (hne : l ≠ []) (hf : Histogram.from_feature l mb = some h) :
    List.Chain' (· ≤ ·) h.bins
      ∧ (∃ m, h.bins.head? = some m ∧ m ∈ l ∧ ∀ x ∈ l, m ≤ x)
      ∧ (∃ M, h.bins.getLast? = some M ∧ M ∈ l ∧ ∀ x ∈ l, x ≤ M) := by
  have hsvne : sorted_values l ≠ [] := fun hz => hne (sorted_values_eq_nil_iff.mp hz)
  have hsort := sorted_values_sorted l
  rcases from_feature_cases hf with ⟨hz, hhist⟩ | ⟨v, hv, hhist⟩ | ⟨h2u, h1m, hhist⟩
  · exact absurd hz hsvne
  · subst hhist
    have hmemv : v ∈ l := mem_sorted_values.mp (by rw [hv]; exact List.mem_singleton_self v)
    have hallv : ∀ x ∈ l, x = v := by
      intro x hx
      have hxs : x ∈ sorted_values l := mem_sorted_values.mpr hx
      rw [hv] at hxs
      exact List.mem_singleton.mp hxs
    refine ⟨by simp, ⟨v, by simp, hmemv, ?_⟩, ⟨v, by simp, hmemv, ?_⟩⟩
    · intro x hx; rw [hallv x hx]
    · intro x hx; rw [hallv x hx]
  · subst hhist
    have hnb : 1 ≤ min mb (n_unique l - 1) := by omega
    have hsl : 1 ≤ (sorted_values l).length := by
      have hrfl : n_unique l = (sorted_values l).length := rfl
      omega
    refine ⟨?_, ?_, ?_⟩
    · exact List.chain'_iff_pairwise.mpr (quantile_bins_sorted hsort hnb hsl)
    · obtain ⟨m, rest, hsv⟩ := List.exists_cons_of_ne_nil hsvne
      refine ⟨m, ?_, ?_, ?_⟩
      · show (quantile_bins (sorted_values l) (min mb (n_unique l - 1))).head? = some m
        rw [quantile_bins_head? hsl hnb, hsv]
        rfl
      · exact mem_sorted_values.mp (by rw [hsv]; exact List.mem_cons_self m rest)
      · intro x hx
        exact sorted_head?_le hsort (mem_sorted_values.mpr hx) (by rw [hsv]; rfl)
    · obtain ⟨M, hM⟩ : ∃ M, (sorted_values l).getLast? = some M := by
        cases hq : (sorted_values l).getLast? with
        | none => exact absurd (List.getLast?_eq_none_iff.mp hq) hsvne
        | some M => exact ⟨M, rfl⟩
      refine ⟨M, ?_, ?_, ?_⟩
      · show (quantile_bins (sorted_values l) (min mb (n_unique l - 1))).getLast? = some M
        rw [quantile_bins_getLast? hsl hnb, hM]
      · exact mem_sorted_values.mp (List.mem_of_mem_getLast? hM)
      · intro x hx
        exact sorted_le_getLast? hsort (mem_sorted_values.mpr hx) hM

theorem c9_bins_sorted_min_max_witness :
    ([(3 : ℚ), 1, 2] ≠ [])
      ∧ (List.Chain' (· ≤ ·) (Histogram.mk [(1 : ℚ), 2, 3] [0, 0] [0, 0]).bins
          ∧ (∃ m, (Histogram.mk [(1 : ℚ), 2, 3] [0, 0] [0, 0]).bins.head? = some m
              ∧ m ∈ [(3 : ℚ), 1, 2] ∧ ∀ x ∈ [(3 : ℚ), 1, 2], m ≤ x)
          ∧ (∃ M, (Histogram.mk [(1 : ℚ), 2, 3] [0, 0] [0, 0]).bins.getLast? = some M
              ∧ M ∈ [(3 : ℚ), 1, 2] ∧ ∀ x ∈ [(3 : ℚ), 1, 2], x ≤ M)) :=
  ⟨by decide,
    c9_bins_sorted_min_max [3, 1, 2] 5 (Histogram.mk [1, 2, 3] [0, 0] [0, 0])
      (by decide) (by decide)⟩

/-- **C10**: a histogram built from a column with exactly one distinct
value `v` is `⟨[v], [0], [0]⟩`; `search_bin_index` returns `0` for every
query, and `accumulate` therefore adds every sample's gradient and hessian
into that single bin. -/
theorem c10_degenerate_single_bin (col : List ℚ) (mb : Nat) (hist : Histogram) (v : ℚ)
    (hf : Histogram.from_feature col mb = some hist) (hv : sorted_values col = [v]) :
    hist = Histogram.mk [v] [0] [0]
      ∧ (∀ q, hist.search_bin_index q = 0)
      ∧ (∀ fv g hs, fv.length = g.length → fv.length = hs.length →
          Histogram.accumulate hist fv g hs
            = some (Histogram.mk [v] [g.sum] [hs.sum])) := by
  have hhist : hist = Histogram.mk [v] [0] [0] := by
    rw [from_feature_single hv] at hf
    exact (Option.some_inj.mp hf).symm
  subst hhist
  refine ⟨rfl, fun q => search_bin_index_single v 0 0 q, ?_⟩
  intro fv g hs hg hhs
  rw [accumulate_single_bin v 0 0 hg hhs, zero_add, zero_add]

theorem c10_degenerate_single_bin_witness :
    Histogram.from_feature [(42 : ℚ), 42, 42] 7 = some (Histogram.mk [42] [0] [0])
      ∧ sorted_values [(42 : ℚ), 42, 42] = [42]
      ∧ (Histogram.mk [(42 : ℚ)] [0] [0] = Histogram.mk [42] [0] [0]
          ∧ (∀ q, (Histogram.mk [(42 : ℚ)] [0] [0]).search_bin_index q = 0)
          ∧ (∀ fv g hs, fv.length = g.length → fv.length = hs.length →
              Histogram.accumulate (Histogram.mk [(42 : ℚ)] [0] [0]) fv g hs
                = some (Histogram.mk [42] [g.sum] [hs.sum]))) :=
  ⟨by decide, by decide,
    c10_degenerate_single_bin [42, 42, 42] 7 (Histogram.mk [42] [0] [0]) 42
      (by decide) (by decide)⟩

end MetalGBM
